import Mathlib

/-!
Verification of the MiniBit peer-to-peer file-distribution swarm
(repository `SD`, Python sources under `src/`).

Shallow embedding conventions:
* byte strings are `List ℕ` (each entry one byte value);
* Python `dict`s keyed by ids become total functions with the dict's
  default on absent keys (`defaultdict(int)` → a `ℕ`-valued function,
  plain dicts consulted through guarded lookups become `Option`/default
  functions mirroring the guard);
* peer-id strings become `ℕ`; the order on `ℕ` stands for the
  lexicographic order Python uses when tuples tie on the score;
* `time.time()` values become an explicit `now : ℚ` parameter;
* `random.choice`/`random.choices` become an explicit `pick : ℕ`
  parameter selecting an element of the candidate list (every candidate
  has positive weight in the source, so the support is the whole list).
-/

namespace Minibit

/-! ## Block manager — `src/minibit/src/peer/block_manager.py`

State of `BlockManager` restricted to the fields its block operations
read or write: `blocks_owned`, `total_blocks`, `blocks_data`.
File-system side effects (`_save_state`, writing `block_<id>.dat`,
`reconstruct_file` on completion) change none of these fields.  -/

structure BlockManager where
  blocks_owned : Finset ℕ
  total_blocks : ℕ
  blocks_data : ℕ → Option (List ℕ)

/-- `BlockManager.add_block` (block_manager.py 77-108).
The id arrives as a Python `int`, hence `ℤ`: ids below `0` or at or above
`total_blocks` are rejected with `False` and the state untouched; an
already-owned id returns `True` immediately without touching the state;
otherwise the bytes are persisted, the id enters the owned set and the
call returns `True`.  No integrity hash is consulted anywhere in the
function. -/
def add_block (st : BlockManager) (block_id : ℤ) (data : List ℕ) :
    Bool × BlockManager :=
  if block_id < 0 ∨ (st.total_blocks : ℤ) ≤ block_id then (false, st)
  else if block_id.toNat ∈ st.blocks_owned then (true, st)
  else
    (true,
      { st with
        blocks_owned := insert block_id.toNat st.blocks_owned
        blocks_data := fun i =>
          if i = block_id.toNat then some data else st.blocks_data i })

/-- `BlockManager.has_block` (block_manager.py 73-75). -/
def has_block (st : BlockManager) (block_id : ℕ) : Bool :=
  block_id ∈ st.blocks_owned

/-- `BlockManager.is_complete` (block_manager.py 202-204). -/
def is_complete (st : BlockManager) : Bool :=
  st.blocks_owned.card = st.total_blocks && 0 < st.total_blocks

/-- `BlockManager.get_missing_blocks` (block_manager.py 131-139):
all ids in `[0, total_blocks)` that are not owned, ascending. -/
def get_missing_blocks (st : BlockManager) : List ℕ :=
  (List.range st.total_blocks).filter (fun b => b ∉ st.blocks_owned)

/-- `BlockManager.set_from_bitfield` (block_manager.py 222-233):
clears the owned set, then re-adds every id below `total` whose bit in
the received bitfield is set (MSB-first within each byte); ids whose
byte lies beyond the bitfield count as absent. -/
def bit_test (bitfield : List ℕ) (i : ℕ) : Bool :=
  match bitfield.get? (i / 8) with
  | some byte => Nat.testBit byte (7 - i % 8)
  | none => false

def set_from_bitfield (st : BlockManager) (bitfield : List ℕ) (total : ℕ) :
    BlockManager :=
  { st with
    total_blocks := total
    blocks_owned := (Finset.range total).filter (fun b => bit_test bitfield b) }

/-- One bit of the own bitfield: `1` iff the block is owned. -/
def bitVal (owned : Finset ℕ) (i : ℕ) : ℕ :=
  if i ∈ owned then 1 else 0

/-- Byte `j` of the encoded bitfield.  `BlockManager.get_bitfield`
accumulates `1 << (7 - id % 8)` into byte `id // 8` with `|=` over the
owned ids; distinct ids in the same byte contribute distinct powers of
two, so the accumulated byte equals this sum of its eight bits. -/
def byteFor (owned : Finset ℕ) (j : ℕ) : ℕ :=
  128 * bitVal owned (8 * j) + 64 * bitVal owned (8 * j + 1) +
    32 * bitVal owned (8 * j + 2) + 16 * bitVal owned (8 * j + 3) +
    8 * bitVal owned (8 * j + 4) + 4 * bitVal owned (8 * j + 5) +
    2 * bitVal owned (8 * j + 6) + bitVal owned (8 * j + 7)

/-- `BlockManager.get_bitfield` (block_manager.py 206-220):
`⌈total/8⌉` bytes, bit `i` (MSB-first) set iff block `i` is owned. -/
def get_bitfield (st : BlockManager) : List ℕ :=
  if st.total_blocks = 0 then []
  else (List.range ((st.total_blocks + 7) / 8)).map (byteFor st.blocks_owned)

/-- Bitfield decoder in `PeerCommunication._update_connection_state`
(communication.py 401-410): on a BITFIELD message the connection's
`blocks_owned` is cleared and re-filled with every bit position in
`[0, 8·len)` whose bit is set — with no upper bound from the torrent's
block count and no rejection path. -/
def decode_conn_bitfield (bitfield : List ℕ) : Finset ℕ :=
  (Finset.range (bitfield.length * 8)).filter (fun i => bit_test bitfield i)

/-! ## Strategies — `src/minibit/src/peer/strategies.py`

State of `PeerStrategies` restricted to the fields the claims touch.
Histories are lists of `(timestamp, byte_count)` pairs; `defaultdict`
counters are total `ℕ`-valued functions; `peer_blocks` is the dict as an
association list so that iteration over its values (rarity counting) is
expressible. -/

structure PeerStrategies where
  max_unchoked : ℕ
  peer_blocks : List (ℕ × Finset ℕ)
  peer_download_rates : ℕ → ℚ
  unchoked_peers : Finset ℕ
  interested_peers : Finset ℕ
  optimistic_unchoke_peer : Option ℕ
  last_unchoke_update : ℚ
  last_optimistic_update : ℚ
  successful_downloads : ℕ → ℕ
  failed_requests : ℕ → ℕ
  download_history : ℕ → List (ℚ × ℚ)
  upload_history : ℕ → List (ℚ × ℚ)

/-- Sum of the byte counts of a history. -/
def sumBytes (h : List (ℚ × ℚ)) : ℚ :=
  (h.map Prod.snd).sum

/-- `min(ts for ts, _ in h)` — earliest timestamp of a (nonempty) history. -/
def minTs (h : List (ℚ × ℚ)) : ℚ :=
  match h.map Prod.fst with
  | [] => 0
  | t :: ts => ts.foldl min t

/-- `PeerStrategies._calculate_tit_for_tat_score` (strategies.py 302-331):
download rate over the last 60 s, plus a reciprocity bonus when both
directions are positive, times a 0.1 penalty for free riders. -/
def tft_score (down up : List (ℚ × ℚ)) (now : ℚ) : ℚ :=
  let recent := down.filter (fun p => now - p.1 ≤ 60)
  let base : ℚ :=
    if recent.isEmpty then 0
    else sumBytes recent / max 1 (now - minTs recent)
  let upB := sumBytes up
  let downB := sumBytes down
  let withRecip : ℚ :=
    if 0 < upB ∧ 0 < downB then
      base + min upB downB / max upB downB * 1000
    else base
  if upB = 0 ∧ 1000 < downB then withRecip * (1 / 10) else withRecip

/-- Python's `list.sort(reverse=True)` order on `(score, peer_id)`
tuples: descending lexicographically. -/
def scoreGE (a b : ℚ × ℕ) : Prop :=
  b.1 < a.1 ∨ (a.1 = b.1 ∧ b.2 ≤ a.2)

instance : DecidableRel scoreGE := fun a b =>
  inferInstanceAs (Decidable (b.1 < a.1 ∨ (a.1 = b.1 ∧ b.2 ≤ a.2)))

instance : IsTotal (ℚ × ℕ) scoreGE where
  total a b := by
    rcases lt_trichotomy a.1 b.1 with h | h | h
    · exact Or.inr (Or.inl h)
    · rcases le_total a.2 b.2 with h2 | h2
      · exact Or.inr (Or.inr ⟨h.symm, h2⟩)
      · exact Or.inl (Or.inr ⟨h, h2⟩)
    · exact Or.inl (Or.inl h)

instance : IsTrans (ℚ × ℕ) scoreGE where
  trans a b c hab hbc := by
    rcases hab with h1 | ⟨h1, h1'⟩ <;> rcases hbc with h2 | ⟨h2, h2'⟩
    · exact Or.inl (h2.trans h1)
    · exact Or.inl (h2 ▸ h1)
    · exact Or.inl (h1 ▸ h2)
    · exact Or.inr ⟨h1.trans h2, h2'.trans h1'⟩

/-- The `(score, peer_id)` list of `update_unchoked_peers` after
`peer_scores.sort(reverse=True)`: the interested connected peers with
their tit-for-tat scores, in descending `(score, id)` order. -/
def ranked_candidates (st : PeerStrategies) (connected : List ℕ)
    (now : ℚ) : List (ℚ × ℕ) :=
  ((connected.filter (fun p => p ∈ st.interested_peers)).map (fun p =>
    (tft_score (st.download_history p) (st.upload_history p) now,
      p))).insertionSort scoreGE

/-- `PeerStrategies.update_unchoked_peers` (strategies.py 124-168).
Returns `((newly_unchoked, newly_choked), new state)`.  When fewer than
10 s have elapsed since the last regular tick, nothing happens; else the
interested connected peers are scored with the tit-for-tat score, sorted
descending on `(score, id)`, and the first `max_unchoked` become the new
unchoked set. -/
def update_unchoked_peers (st : PeerStrategies) (connected : List ℕ)
    (now : ℚ) : (Finset ℕ × Finset ℕ) × PeerStrategies :=
  if now - st.last_unchoke_update < 10 then ((∅, ∅), st)
  else if (connected.filter (fun p => p ∈ st.interested_peers)).isEmpty then
    ((∅, ∅), { st with last_unchoke_update := now })
  else
    (((((ranked_candidates st connected now).take st.max_unchoked).map
          Prod.snd).toFinset \ st.unchoked_peers,
      st.unchoked_peers \
        (((ranked_candidates st connected now).take st.max_unchoked).map
          Prod.snd).toFinset),
      { st with
        last_unchoke_update := now
        unchoked_peers :=
          (((ranked_candidates st connected now).take st.max_unchoked).map
            Prod.snd).toFinset })

/-- `PeerStrategies.select_optimistic_unchoke` (strategies.py 170-207).
When 30 s have elapsed, picks one of the interested connected peers that
are not regular-unchoked (`pick` chooses the index; `random.choices`
gives every candidate a weight ≥ 1, so any index is reachable) and
stores it in the optimistic slot. -/
def select_optimistic_unchoke (st : PeerStrategies) (connected : List ℕ)
    (now : ℚ) (pick : ℕ) : Option ℕ × PeerStrategies :=
  if now - st.last_optimistic_update < 30 then (st.optimistic_unchoke_peer, st)
  else if (connected.filter
      (fun p => p ∈ st.interested_peers ∧ p ∉ st.unchoked_peers)) = [] then
    (none, { st with
      last_optimistic_update := now
      optimistic_unchoke_peer := none })
  else
    (some ((connected.filter
        (fun p => p ∈ st.interested_peers ∧ p ∉ st.unchoked_peers)).getD
        (pick % (connected.filter
          (fun p => p ∈ st.interested_peers ∧
            p ∉ st.unchoked_peers)).length) 0),
      { st with
        last_optimistic_update := now
        optimistic_unchoke_peer :=
          some ((connected.filter
            (fun p => p ∈ st.interested_peers ∧ p ∉ st.unchoked_peers)).getD
            (pick % (connected.filter
              (fun p => p ∈ st.interested_peers ∧
                p ∉ st.unchoked_peers)).length) 0) })

/-- `PeerStrategies._update_download_rate` (strategies.py 333-352):
recompute the 30 s download rate of `peer` from its history. -/
def update_download_rate (st : PeerStrategies) (peer : ℕ) (now : ℚ) :
    PeerStrategies :=
  let h := st.download_history peer
  let rate : ℚ :=
    if h.isEmpty then 0
    else
      let recent := h.filter (fun p => now - p.1 ≤ 30)
      if recent.isEmpty then 0
      else sumBytes recent / max 1 (now - minTs recent)
  { st with peer_download_rates :=
      fun q => if q = peer then rate else st.peer_download_rates q }

/-- `PeerStrategies.record_download` (strategies.py 209-224): on success
append to the download history (trimmed to the last 10 entries) and
bump the success counter; on failure bump only the failed counter; in
both cases recompute the peer's download rate. -/
def record_download (st : PeerStrategies) (peer : ℕ) (bytes : ℚ)
    (success : Bool) (now : ℚ) : PeerStrategies :=
  let st1 :=
    if success then
      let h := st.download_history peer ++ [(now, bytes)]
      let h2 := if 10 < h.length then h.drop (h.length - 10) else h
      { st with
        successful_downloads := fun q =>
          if q = peer then st.successful_downloads q + 1
          else st.successful_downloads q
        download_history := fun q =>
          if q = peer then h2 else st.download_history q }
    else
      { st with
        failed_requests := fun q =>
          if q = peer then st.failed_requests q + 1 else st.failed_requests q }
  update_download_rate st1 peer now

/-- `rarity(b)` — number of entries of the `peer_blocks` dict whose
block set contains `b` (strategies.py 266-277). -/
def rarity (peer_blocks : List (ℕ × Finset ℕ)) (b : ℕ) : ℕ :=
  (peer_blocks.filter (fun e => b ∈ e.2)).length

/-- `sorted(..., key=lambda b: (rarity b, b))` order: lexicographic on
`(rarity, id)`.  The key is injective on distinct ids, so Python's
stable sort returns the unique list sorted by this total order. -/
def rarityLE (peer_blocks : List (ℕ × Finset ℕ)) (b1 b2 : ℕ) : Prop :=
  rarity peer_blocks b1 < rarity peer_blocks b2 ∨
    (rarity peer_blocks b1 = rarity peer_blocks b2 ∧ b1 ≤ b2)

instance (pb : List (ℕ × Finset ℕ)) : DecidableRel (rarityLE pb) :=
  fun a b =>
    inferInstanceAs (Decidable (rarity pb a < rarity pb b ∨
      (rarity pb a = rarity pb b ∧ a ≤ b)))

instance (pb : List (ℕ × Finset ℕ)) : IsTotal ℕ (rarityLE pb) where
  total a b := by unfold rarityLE; omega

instance (pb : List (ℕ × Finset ℕ)) : IsTrans ℕ (rarityLE pb) where
  trans a b c hab hbc := by
    unfold rarityLE at *; omega

/-- `PeerStrategies.select_rarest_blocks` (strategies.py 77-94): sort
the missing blocks by `(rarity, id)` ascending and keep the first
`max_blocks`. -/
def select_rarest_blocks (st : PeerStrategies) (missing : List ℕ)
    (max_blocks : ℕ) : List ℕ :=
  if missing.isEmpty then []
  else (missing.insertionSort (rarityLE st.peer_blocks)).take max_blocks

/-! ## minibit-final peer — `src/minibit-final/peer/peer.py` and
`src/minibit-final/utils/utils.py` -/

/-- State of the minibit-final `Peer` restricted to the fields of the
serve path.  This variant keeps no upload or download counters at all;
its request handler reads `allowed_peers`, `optimistic_peer` and
`blocks` under the lock and mutates nothing. -/
structure FinalPeer where
  blocks : Finset ℕ
  total_blocks : ℕ
  allowed_peers : Finset ℕ
  optimistic_peer : Option ℕ

/-- Reply to a `block_request`: either the block bytes or the
`b'CHOKED'` sentinel. -/
inductive ServeReply where
  | piece (data : List ℕ)
  | choked
  deriving DecidableEq

/-- The `block_request` branch of `Peer._handle_request`
(minibit-final/peer/peer.py 57-75).  `store` models reading the block
file from disk.  The reply is the block bytes iff the requester is in
`allowed_peers` or is the optimistic peer AND the block is owned;
otherwise the `CHOKED` sentinel.  The handler returns the state
unchanged: it mutates no field. -/
def handle_block_request (st : FinalPeer) (store : ℕ → List ℕ)
    (requester_port block_id : ℕ) : ServeReply × FinalPeer :=
  let allowed := requester_port ∈ st.allowed_peers ∨
    st.optimistic_peer = some requester_port
  if allowed ∧ block_id ∈ st.blocks then (.piece (store block_id), st)
  else (.choked, st)

/-- `partition_file` (minibit-final/utils/utils.py 5-15): read
`segment_size` bytes at a time until the file is exhausted, one block
per chunk.  `f.read(0)` returns the empty string, so a zero segment
size produces no blocks, exactly as in the source. -/
def partition_file (B : ℕ) (content : List ℕ) : List (List ℕ) :=
  if h : B = 0 ∨ content = [] then []
  else content.take B :: partition_file B (content.drop B)
termination_by content.length
decreasing_by
  simp only [not_or] at h
  have h1 : 1 ≤ B := Nat.one_le_iff_ne_zero.mpr h.1
  have h2 : content.length ≠ 0 :=
    fun hl => h.2 (List.eq_nil_of_length_eq_zero hl)
  simp only [List.length_drop]
  omega

/-- `assemble_file` (minibit-final/utils/utils.py 17-23): concatenate
the blocks of `block_numbers` in ascending order; `store` models
reading block file `i`. -/
def assemble_file (store : ℕ → List ℕ) (block_numbers : List ℕ) : List ℕ :=
  ((block_numbers.insertionSort (· ≤ ·)).map store).flatten

/-! ## Sample states used by witnesses and counterexamples -/

/-- A block manager for a one-block file that owns nothing yet. -/
def bm0 : BlockManager :=
  { blocks_owned := ∅, total_blocks := 1, blocks_data := fun _ => none }

/-- A block manager for a one-block file that owns block `0` with
bytes `[7]`. -/
def bm1 : BlockManager :=
  { blocks_owned := {0}, total_blocks := 1
    blocks_data := fun i => if i = 0 then some [7] else none }

/-- Stand-in for the `hashlib.sha256` digest that
`split_file` (minibit/peer/file_manager.py 5-19) computes per block.
`add_block` never consults any hash, so the only property the
counterexample needs is that the tampered bytes hash differently from
the original block. -/
def modelHash (data : List ℕ) : ℕ :=
  data.foldl (fun a b => a * 256 + b + 1) 1

/-- A strategies state with no known peers, nobody interested and empty
histories. -/
def ps0 : PeerStrategies :=
  { max_unchoked := 4, peer_blocks := [], peer_download_rates := fun _ => 0
    unchoked_peers := ∅, interested_peers := ∅
    optimistic_unchoke_peer := none
    last_unchoke_update := 0, last_optimistic_update := 0
    successful_downloads := fun _ => 0, failed_requests := fun _ => 0
    download_history := fun _ => [], upload_history := fun _ => [] }

/-- Like `ps0` but peer `7` is interested (and advertises no blocks). -/
def ps1 : PeerStrategies :=
  { ps0 with interested_peers := {7} }

/-- Like `ps1` but peer `7` currently sits in the optimistic slot. -/
def ps2 : PeerStrategies :=
  { ps0 with interested_peers := {7}, optimistic_unchoke_peer := some 7 }

/-! ## C10 — out-of-range `add_block` -/

/-- C10: for every block id outside `[0, total_blocks)` —
negative or at/above the block count — `add_block` returns `False` and
the state (owned set, block data, hence persisted state and completion
status) is exactly the one before the call. -/
theorem add_block_out_of_range (st : BlockManager) (block_id : ℤ)
    (data : List ℕ)
    (h : block_id < 0 ∨ (st.total_blocks : ℤ) ≤ block_id) :
    add_block st block_id data = (false, st) := by
  unfold add_block
  rw [if_pos h]

/-- Witness for C10: on a one-block manager, inserting id `5` fails and
changes nothing. -/
theorem add_block_out_of_range_witness :
    add_block bm0 5 [9] = (false, bm0) :=
  add_block_out_of_range bm0 5 [9] (by norm_num [bm0])

/-! ## C9 — idempotence on owned ids -/

/-- C9: `add_block` on an already-owned in-range id returns `True` and
leaves the state untouched — in particular this holds when the supplied
bytes match the stored hash (the function returns before looking at the
bytes at all), so the repeated insert changes no observable state. -/
theorem add_block_idempotent (st : BlockManager) (b : ℕ) (data : List ℕ)
    (hmem : b ∈ st.blocks_owned) (hlt : b < st.total_blocks) :
    add_block st (b : ℤ) data = (true, st) := by
  unfold add_block
  rw [if_neg (by push_neg; exact ⟨Int.natCast_nonneg b, by exact_mod_cast hlt⟩)]
  simp only [Int.toNat_natCast]
  rw [if_pos hmem]

/-- Witness for C9: re-inserting owned block `0` with its stored bytes
succeeds and changes nothing. -/
theorem add_block_idempotent_witness :
    add_block bm1 (0 : ℕ) [7] = (true, bm1) :=
  add_block_idempotent bm1 0 [7] (by decide) (by decide)

/-! ## C6 — monotonicity of the owned set -/

/-- Counterexample for C6: `set_from_bitfield` is a block-store
operation that replaces the owned set wholesale; decoding an empty
bitfield removes the previously owned block `0`, so the owned set is
not monotone under every sequence of block-store operations. -/
theorem set_from_bitfield_not_monotone :
    ¬ bm1.blocks_owned ⊆ (set_from_bitfield bm1 [] 1).blocks_owned := by
  decide

/-- C6 (amended): under `add_block` the owned set only grows and the
stored bytes of an owned block never change; `set_from_bitfield`,
however, replaces the owned set from the received bitfield and can
remove ids. -/
theorem add_block_monotone (st : BlockManager) (block_id : ℤ)
    (data : List ℕ) :
    st.blocks_owned ⊆ (add_block st block_id data).2.blocks_owned ∧
    ∀ i ∈ st.blocks_owned,
      (add_block st block_id data).2.blocks_data i = st.blocks_data i := by
  unfold add_block
  split
  · exact ⟨Finset.Subset.refl _, fun i _ => rfl⟩
  · split
    next hmem => exact ⟨Finset.Subset.refl _, fun i _ => rfl⟩
    next hmem =>
      refine ⟨Finset.subset_insert _ _, fun i hi => ?_⟩
      have : i ≠ block_id.toNat := fun he => hmem (he ▸ hi)
      simp [this]

/-- Witness for C6 (amended): applied to `bm1` and a fresh insert, the
owned set keeps block `0` and its bytes. -/
theorem add_block_monotone_witness :
    bm1.blocks_owned ⊆ (add_block bm1 0 [9]).2.blocks_owned ∧
    (add_block bm1 0 [9]).2.blocks_data 0 = bm1.blocks_data 0 :=
  ⟨(add_block_monotone bm1 0 [9]).1,
    (add_block_monotone bm1 0 [9]).2 0 (by decide)⟩

/-! ## C1 — bad-hash PIECE handling -/

/-- Counterexample for C1: `add_block` performs no integrity check at
all.  For a one-block manager whose original block is `[1, 2, 3]`, the
tampered bytes `[9, 9, 9]` hash differently, yet the insert returns
`True`, the id enters the owned set and the tampered bytes are
persisted — the claimed `BadHash` failure cannot occur because the code
stores and consults no per-block hash. -/
theorem add_block_ignores_hash_cex :
    modelHash [9, 9, 9] ≠ modelHash [1, 2, 3] ∧
    (add_block bm0 0 [9, 9, 9]).1 = true ∧
    0 ∈ (add_block bm0 0 [9, 9, 9]).2.blocks_owned ∧
    (add_block bm0 0 [9, 9, 9]).2.blocks_data 0 = some [9, 9, 9] := by
  refine ⟨by decide, ?_, ?_, ?_⟩ <;> decide

/-- C1 (amended): `add_block` verifies no hash — any bytes supplied for
a missing in-range id are persisted and the call succeeds; failed
requests are counted only when the caller reports `success=False` to
`record_download`, which then increments that peer's failed counter by
exactly one and neither credits the download history nor touches the
success counters or the unchoke state. -/
theorem add_block_no_integrity_check :
    (∀ (st : BlockManager) (b : ℕ) (data : List ℕ),
      b ∉ st.blocks_owned → b < st.total_blocks →
        (add_block st (b : ℤ) data).1 = true ∧
        (add_block st (b : ℤ) data).2.blocks_owned =
          insert b st.blocks_owned ∧
        (add_block st (b : ℤ) data).2.blocks_data b = some data) ∧
    (∀ (st : PeerStrategies) (peer : ℕ) (bytes now : ℚ),
      (record_download st peer bytes false now).failed_requests peer =
        st.failed_requests peer + 1 ∧
      (record_download st peer bytes false now).successful_downloads =
        st.successful_downloads ∧
      (record_download st peer bytes false now).download_history =
        st.download_history ∧
      (record_download st peer bytes false now).unchoked_peers =
        st.unchoked_peers) := by
  constructor
  · intro st b data hmem hlt
    have hguard : ¬ ((b : ℤ) < 0 ∨ (st.total_blocks : ℤ) ≤ (b : ℤ)) := by
      push_neg
      exact ⟨Int.natCast_nonneg b, by exact_mod_cast hlt⟩
    unfold add_block
    rw [if_neg hguard]
    simp only [Int.toNat_natCast]
    rw [if_neg hmem]
    exact ⟨rfl, rfl, by simp⟩
  · intro st peer bytes now
    refine ⟨?_, rfl, rfl, rfl⟩
    simp [record_download, update_download_rate]

/-- Witness for C1 (amended): a fresh insert of arbitrary bytes into
`bm0` succeeds, and a failed download recorded against peer `3` bumps
its failed counter from 0 to 1. -/
theorem add_block_no_integrity_check_witness :
    (add_block bm0 (0 : ℕ) [5]).1 = true ∧
    (record_download ps0 3 100 false 0).failed_requests 3 =
      ps0.failed_requests 3 + 1 :=
  ⟨(add_block_no_integrity_check.1 bm0 0 [5] (by decide) (by decide)).1,
    (add_block_no_integrity_check.2 ps0 3 100 0).1⟩

/-! ## C2 — serve-side choke enforcement (minibit-final) -/

/-- A minibit-final peer owning block `0` with nobody unchoked. -/
def fp0 : FinalPeer :=
  { blocks := {0}, total_blocks := 1, allowed_peers := ∅
    optimistic_peer := none }

/-- C2: on a `block_request` the reply carries the block bytes iff the
requester is in `allowed_peers` or is the optimistic peer AND the block
is owned; in every other case the reply is the `CHOKED` sentinel with
no block bytes; the handler leaves the whole peer state unchanged (this
variant keeps no upload counters, and the handler writes no field, so
in particular nothing recorded about the requester changes). -/
theorem handle_request_serve_iff (st : FinalPeer) (store : ℕ → List ℕ)
    (q b : ℕ) :
    ((handle_block_request st store q b).1 = ServeReply.piece (store b) ↔
      (q ∈ st.allowed_peers ∨ st.optimistic_peer = some q) ∧
        b ∈ st.blocks) ∧
    ((handle_block_request st store q b).1 = ServeReply.choked ↔
      ¬ ((q ∈ st.allowed_peers ∨ st.optimistic_peer = some q) ∧
        b ∈ st.blocks)) ∧
    (handle_block_request st store q b).2 = st := by
  unfold handle_block_request
  by_cases h : (q ∈ st.allowed_peers ∨ st.optimistic_peer = some q) ∧
      b ∈ st.blocks <;>
    simp [h]

/-- Witness for C2: requester `1` is neither unchoked nor optimistic at
`fp0`, so its request for owned block `0` is answered with `CHOKED`. -/
theorem handle_request_serve_iff_witness :
    (handle_block_request fp0 (fun _ => [7]) 1 0).1 = ServeReply.choked :=
  ((handle_request_serve_iff fp0 (fun _ => [7]) 1 0).2.1).mpr (by decide)

/-! ## C7 — split/assemble round trip (minibit-final utils) -/

/-- Reading each block of a stored block list in index order recovers
the list. -/
theorem map_getD_range (l : List (List ℕ)) :
    (List.range l.length).map (fun i => l.getD i []) = l := by
  induction l with
  | nil => simp
  | cons a t ih =>
    rw [List.length_cons, List.range_succ_eq_map, List.map_cons,
      List.map_map]
    simp only [Function.comp_def, List.getD_cons_zero, List.getD_cons_succ]
    rw [ih]

/-- Concatenating the partition of a byte list recovers the list. -/
theorem flatten_partition_file (B : ℕ) (hB : 0 < B) (l : List ℕ) :
    (partition_file B l).flatten = l := by
  rw [partition_file]
  split
  next h =>
    rcases h with h | h
    · omega
    · simp [h]
  next h =>
    rw [List.flatten_cons, flatten_partition_file B hB (l.drop B),
      List.take_append_drop]
termination_by l.length
decreasing_by
  rename_i h
  simp only [not_or] at h
  have h2 : l.length ≠ 0 := fun hl => h.2 (List.eq_nil_of_length_eq_zero hl)
  simp only [List.length_drop]
  omega

/-- C7: for every byte sequence and every block size `B > 0`, splitting
with `partition_file` (last block possibly shorter, no padding) and
reassembling the blocks in ascending id order with `assemble_file`
yields exactly the original sequence. -/
theorem split_assemble_roundtrip (content : List ℕ) (B : ℕ)
    (hB : 0 < B) :
    assemble_file (fun i => (partition_file B content).getD i [])
      (List.range (partition_file B content).length) = content := by
  unfold assemble_file
  rw [List.Sorted.insertionSort_eq
    ((List.pairwise_le_range _).imp fun h => h)]
  rw [map_getD_range, flatten_partition_file B hB]

/-- Witness for C7: a five-byte file split into blocks of two is
reassembled byte-for-byte. -/
theorem split_assemble_roundtrip_witness :
    assemble_file
      (fun i => (partition_file 2 [1, 2, 3, 4, 5]).getD i [])
      (List.range (partition_file 2 [1, 2, 3, 4, 5]).length) =
      [1, 2, 3, 4, 5] :=
  split_assemble_roundtrip [1, 2, 3, 4, 5] 2 (by norm_num)

/-! ## C3 — rarest-first selection -/

/-- Counterexample for C3: `select_rarest_blocks` neither discards
rarity-0 blocks nor breaks ties randomly.  With no known peer, block
`0` has rarity 0, yet it is selected — the claim requires it to be
discarded. -/
theorem select_rarest_keeps_rarity_zero :
    rarity ps0.peer_blocks 0 = 0 ∧
    select_rarest_blocks ps0 [0] 5 = [0] := by
  constructor <;> decide

/-- C3 (amended): the scheduler selects blocks only from the missing
set and returns at most `max_blocks` of them, ordered by
`(rarity, block id)` ascending — a deterministic order that keeps
rarity-0 blocks and breaks rarity ties by block id, not by a random
permutation. -/
theorem select_rarest_deterministic (st : PeerStrategies)
    (missing : List ℕ) (k : ℕ) :
    (∀ b ∈ select_rarest_blocks st missing k, b ∈ missing) ∧
    (select_rarest_blocks st missing k).Pairwise
      (rarityLE st.peer_blocks) ∧
    (select_rarest_blocks st missing k).length ≤ k := by
  unfold select_rarest_blocks
  by_cases h : missing.isEmpty
  · simp [h]
  · rw [if_neg h]
    refine ⟨?_, ?_, ?_⟩
    · intro b hb
      exact (List.perm_insertionSort _ _).subset
        ((List.take_sublist _ _).subset hb)
    · exact List.Pairwise.sublist (List.take_sublist _ _)
        (List.sorted_insertionSort _ _)
    · exact List.length_take_le _ _

/-- Witness for C3 (amended): with no peers known, the single missing
block `0` is selected, belongs to the missing list, and the batch
respects the size bound. -/
theorem select_rarest_deterministic_witness :
    (0 ∈ ([0] : List ℕ)) ∧
    (select_rarest_blocks ps0 [0] 5).length ≤ 5 :=
  ⟨(select_rarest_deterministic ps0 [0] 5).1 0 (by decide),
    (select_rarest_deterministic ps0 [0] 5).2.2⟩

/-! ## C4 — regular unchoke ranking -/

/-- Counterexample for C4: the regular tick never checks that a
candidate holds a block we still need.  Peer `7` advertises no blocks
at all, yet after the tick it is in the unchoked set — the claim
requires members to hold at least one needed block.  (The ranking is
also not plain 30 s `down_rate`: `_calculate_tit_for_tat_score` uses a
60 s window plus reciprocity and free-rider terms.) -/
theorem update_unchoked_ignores_needed_blocks :
    (update_unchoked_peers ps1 [7] 20).2.unchoked_peers = {7} ∧
    ps1.peer_blocks = [] := by
  constructor
  · unfold update_unchoked_peers
    rw [if_neg (by norm_num [ps1, ps0] :
      ¬ ((20 : ℚ) - ps1.last_unchoke_update < 10))]
    decide
  · rfl

/-- C4 (amended): on a due regular tick with at least one interested
connected peer, the new unchoked set consists of the ids of the first
`max_unchoked` entries of the candidates ranked descending by
`(tit-for-tat score, id)`; hence it has at most `max_unchoked` members,
each member is an interested connected peer, and every selected
candidate ranks at least as high as every rejected one.  No
needed-block condition is applied. -/
theorem update_unchoked_top_k (st : PeerStrategies) (connected : List ℕ)
    (now : ℚ) (hdue : 10 ≤ now - st.last_unchoke_update)
    (hne : connected.filter (fun p => p ∈ st.interested_peers) ≠ []) :
    (update_unchoked_peers st connected now).2.unchoked_peers =
      (((ranked_candidates st connected now).take st.max_unchoked).map
        Prod.snd).toFinset ∧
    (update_unchoked_peers st connected now).2.unchoked_peers.card ≤
      st.max_unchoked ∧
    (∀ p ∈ (update_unchoked_peers st connected now).2.unchoked_peers,
      p ∈ connected ∧ p ∈ st.interested_peers) ∧
    (∀ a ∈ (ranked_candidates st connected now).take st.max_unchoked,
      ∀ b ∈ (ranked_candidates st connected now).drop st.max_unchoked,
        scoreGE a b) := by
  have hres : (update_unchoked_peers st connected now).2.unchoked_peers =
      (((ranked_candidates st connected now).take st.max_unchoked).map
        Prod.snd).toFinset := by
    unfold update_unchoked_peers
    rw [if_neg (not_lt.mpr hdue),
      if_neg (fun hc => hne (List.isEmpty_iff.mp hc))]
  refine ⟨hres, ?_, ?_, ?_⟩
  · rw [hres]
    refine le_trans (List.toFinset_card_le _) ?_
    rw [List.length_map]
    exact List.length_take_le _ _
  · intro p hp
    rw [hres, List.mem_toFinset] at hp
    obtain ⟨pair, hpair, rfl⟩ := List.mem_map.mp hp
    have h1 : pair ∈ ranked_candidates st connected now :=
      (List.take_sublist _ _).subset hpair
    unfold ranked_candidates at h1
    have h2 := (List.perm_insertionSort _ _).subset h1
    obtain ⟨q, hq, heq⟩ := List.mem_map.mp h2
    have hq2 := List.mem_filter.mp hq
    have hsnd : pair.2 = q := by rw [← heq]
    rw [hsnd]
    exact ⟨hq2.1, of_decide_eq_true hq2.2⟩
  · intro a ha b hb
    have hs : (ranked_candidates st connected now).Pairwise scoreGE :=
      List.sorted_insertionSort _ _
    have hfull : List.Pairwise scoreGE
        ((ranked_candidates st connected now).take st.max_unchoked ++
          (ranked_candidates st connected now).drop st.max_unchoked) := by
      rw [List.take_append_drop]
      exact hs
    exact (List.pairwise_append.mp hfull).2.2 a ha b hb

/-- Witness for C4 (amended): at `ps1` with interested connected peer
`7` and a due tick, the resulting set is within the slot bound and
member `7` is indeed interested and connected. -/
theorem update_unchoked_top_k_witness :
    (update_unchoked_peers ps1 [7] 20).2.unchoked_peers.card ≤
      ps1.max_unchoked ∧
    (7 ∈ [7] ∧ 7 ∈ ps1.interested_peers) :=
  ⟨(update_unchoked_top_k ps1 [7] 20 (by norm_num [ps1, ps0])
      (by decide)).2.1,
    (update_unchoked_top_k ps1 [7] 20 (by norm_num [ps1, ps0])
      (by decide)).2.2.1 7 (by
        unfold update_unchoked_peers
        rw [if_neg (by norm_num [ps1, ps0] :
          ¬ ((20 : ℚ) - ps1.last_unchoke_update < 10))]
        decide)⟩

/-! ## C5 — unchoke-set invariants -/

/-- Counterexample for C5: the regular tick does not preserve
disjointness of the optimistic slot from the regular set.  At `ps2`
peer `7` is the optimistic peer; the regular tick then promotes `7`
into the unchoked set while leaving the optimistic slot pointing at
it. -/
theorem regular_tick_breaks_disjointness :
    7 ∈ (update_unchoked_peers ps2 [7] 20).2.unchoked_peers ∧
    (update_unchoked_peers ps2 [7] 20).2.optimistic_unchoke_peer =
      some 7 := by
  have hgate : ¬ ((20 : ℚ) - ps2.last_unchoke_update < 10) := by
    norm_num [ps2, ps0]
  constructor
  · unfold update_unchoked_peers
    rw [if_neg hgate]
    decide
  · unfold update_unchoked_peers
    rw [if_neg hgate]
    decide

/-- C5 (amended): the regular tick preserves
`|unchoked| ≤ max_unchoked` (K = 4), and a due optimistic tick only
installs a peer outside the current regular set while leaving the
regular set unchanged; but the regular tick can promote the current
optimistic peer into the regular set without clearing the slot, so
`optimistic ∉ unchoked` holds after every optimistic tick yet is not
re-established by the regular tick. -/
theorem unchoke_invariants :
    (∀ (st : PeerStrategies) (connected : List ℕ) (now : ℚ),
      st.unchoked_peers.card ≤ st.max_unchoked →
        (update_unchoked_peers st connected now).2.unchoked_peers.card ≤
          st.max_unchoked) ∧
    (∀ (st : PeerStrategies) (connected : List ℕ) (now : ℚ) (pick : ℕ),
      30 ≤ now - st.last_optimistic_update →
        ∀ p, (select_optimistic_unchoke st connected now pick).1 = some p →
          p ∉ st.unchoked_peers ∧
          (select_optimistic_unchoke st connected now
            pick).2.unchoked_peers = st.unchoked_peers) := by
  constructor
  · intro st connected now hcard
    unfold update_unchoked_peers
    split
    · exact hcard
    · split
      · exact hcard
      · refine le_trans (List.toFinset_card_le _) ?_
        rw [List.length_map]
        exact List.length_take_le _ _
  · intro st connected now pick hdue p hp
    unfold select_optimistic_unchoke at hp ⊢
    rw [if_neg (not_lt.mpr hdue)] at hp ⊢
    by_cases he : connected.filter
        (fun q => q ∈ st.interested_peers ∧ q ∉ st.unchoked_peers) = []
    · rw [if_pos he] at hp
      exact absurd hp (by simp)
    · rw [if_neg he] at hp ⊢
      have hsel := Option.some.inj hp
      have hlen : 0 < (connected.filter
          (fun q => q ∈ st.interested_peers ∧
            q ∉ st.unchoked_peers)).length :=
        List.length_pos.mpr he
      have hidx := Nat.mod_lt pick hlen
      have hmem : (connected.filter
          (fun q => q ∈ st.interested_peers ∧
            q ∉ st.unchoked_peers)).getD
            (pick % (connected.filter
              (fun q => q ∈ st.interested_peers ∧
                q ∉ st.unchoked_peers)).length) 0 ∈
          connected.filter (fun q => q ∈ st.interested_peers ∧
            q ∉ st.unchoked_peers) := by
        rw [List.getD_eq_getElem _ _ hidx]
        exact List.getElem_mem _
      have hpred := (List.mem_filter.mp hmem).2
      rw [hsel] at hpred
      exact ⟨(of_decide_eq_true hpred).2, rfl⟩

/-- Witness for C5 (amended): the empty unchoked set of `ps0` stays
within the bound through a tick, and a due optimistic tick at `ps1`
selects peer `7`, which is not regular-unchoked. -/
theorem unchoke_invariants_witness :
    (update_unchoked_peers ps0 [] 0).2.unchoked_peers.card ≤
      ps0.max_unchoked ∧
    7 ∉ ps1.unchoked_peers :=
  ⟨unchoke_invariants.1 ps0 [] 0 (by decide),
    (unchoke_invariants.2 ps1 [7] 40 0 (by norm_num [ps1, ps0]) 7
      (by
        unfold select_optimistic_unchoke
        rw [if_neg (by norm_num [ps1, ps0] :
          ¬ ((40 : ℚ) - ps1.last_optimistic_update < 30))]
        decide)).1⟩

/-! ## C8 — bitfield encoding and decoding -/

/-- Each bit of the own bitfield is 0 or 1. -/
theorem bitVal_le_one (owned : Finset ℕ) (i : ℕ) : bitVal owned i ≤ 1 := by
  unfold bitVal
  split <;> norm_num

/-- Extracting bit `k` (MSB-first) of a packed byte returns the stored
bit. -/
theorem byteFor_extract (owned : Finset ℕ) (j k : ℕ) (hk : k < 8) :
    byteFor owned j / 2 ^ (7 - k) % 2 = bitVal owned (8 * j + k) := by
  have h0 := bitVal_le_one owned (8 * j)
  have h1 := bitVal_le_one owned (8 * j + 1)
  have h2 := bitVal_le_one owned (8 * j + 2)
  have h3 := bitVal_le_one owned (8 * j + 3)
  have h4 := bitVal_le_one owned (8 * j + 4)
  have h5 := bitVal_le_one owned (8 * j + 5)
  have h6 := bitVal_le_one owned (8 * j + 6)
  have h7 := bitVal_le_one owned (8 * j + 7)
  unfold byteFor
  interval_cases k <;> norm_num <;> omega

/-- The encoded bitfield always has `⌈total/8⌉` bytes. -/
theorem get_bitfield_length (st : BlockManager) :
    (get_bitfield st).length = (st.total_blocks + 7) / 8 := by
  unfold get_bitfield
  split
  next h => simp [h]
  next h => simp

/-- Byte `j` of the encoded bitfield is the packed byte of bits
`8j .. 8j+7`. -/
theorem get_bitfield_getD (st : BlockManager) (j : ℕ)
    (hj : j < (st.total_blocks + 7) / 8) :
    (get_bitfield st).getD j 0 = byteFor st.blocks_owned j := by
  have hne : st.total_blocks ≠ 0 := by
    intro h0
    rw [h0] at hj
    omega
  unfold get_bitfield
  rw [if_neg hne, List.getD_eq_getElem _ _ (by simpa using hj),
    List.getElem_map, List.getElem_range]

/-- C8 (amended): the encoder emits exactly `⌈N/8⌉` bytes with bit `i`
equal to `(byte[i/8] >> (7 - i%8)) & 1 = [i ∈ owned]`, and every
trailing bit beyond position `N-1` is zero (given the invariant that
owned ids lie in `[0, N)`); the decoder, however, does not reject
non-zero trailing bits: `set_from_bitfield`'s result depends only on
the first `N` bit positions of the received bitfield, so a bitfield
with set trailing bits is accepted exactly like the cleaned one. -/
theorem bitfield_encoding (st : BlockManager)
    (hsub : st.blocks_owned ⊆ Finset.range st.total_blocks) :
    (get_bitfield st).length = (st.total_blocks + 7) / 8 ∧
    (∀ i < st.total_blocks,
      (get_bitfield st).getD (i / 8) 0 / 2 ^ (7 - i % 8) % 2 =
        if i ∈ st.blocks_owned then 1 else 0) ∧
    (∀ i, st.total_blocks ≤ i → i < 8 * (get_bitfield st).length →
      (get_bitfield st).getD (i / 8) 0 / 2 ^ (7 - i % 8) % 2 = 0) ∧
    (∀ (bf bf' : List ℕ) (total : ℕ),
      (∀ j < total, bit_test bf j = bit_test bf' j) →
      (set_from_bitfield st bf total).blocks_owned =
        (set_from_bitfield st bf' total).blocks_owned) := by
  refine ⟨get_bitfield_length st, ?_, ?_, ?_⟩
  · intro i hi
    have hj : i / 8 < (st.total_blocks + 7) / 8 := by omega
    rw [get_bitfield_getD st _ hj,
      byteFor_extract st.blocks_owned (i / 8) (i % 8)
        (Nat.mod_lt _ (by norm_num)),
      (by omega : 8 * (i / 8) + i % 8 = i)]
    rfl
  · intro i hle hlt
    rw [get_bitfield_length] at hlt
    have hj : i / 8 < (st.total_blocks + 7) / 8 := by omega
    rw [get_bitfield_getD st _ hj,
      byteFor_extract st.blocks_owned (i / 8) (i % 8)
        (Nat.mod_lt _ (by norm_num)),
      (by omega : 8 * (i / 8) + i % 8 = i)]
    unfold bitVal
    rw [if_neg (fun hmem => by
      have := Finset.mem_range.mp (hsub hmem)
      omega)]
  · intro bf bf' total hagree
    unfold set_from_bitfield
    simp only
    refine Finset.filter_congr ?_
    intro x hx
    rw [hagree x (Finset.mem_range.mp hx)]

/-- Witness for C8 (amended): at `bm1` (one block, owned), the encoded
bitfield is one byte whose top bit reads back as 1. -/
theorem bitfield_encoding_witness :
    (get_bitfield bm1).length = (bm1.total_blocks + 7) / 8 ∧
    (get_bitfield bm1).getD (0 / 8) 0 / 2 ^ (7 - 0 % 8) % 2 =
      (if 0 ∈ bm1.blocks_owned then 1 else 0) :=
  ⟨(bitfield_encoding bm1 (by decide)).1,
    (bitfield_encoding bm1 (by decide)).2.1 0 (by decide)⟩

/-- Counterexample for C8: the decoders accept non-zero trailing bits.
For a one-block swarm, the bitfield `0xFF` has its seven trailing bits
set, yet `set_from_bitfield` decodes it without any rejection, exactly
like the clean `0x80`; the connection-state decoder even records the
phantom block id `1` from `0xC0`. -/
theorem bitfield_decoder_accepts_trailing_bits :
    bit_test [255] 1 = true ∧
    (set_from_bitfield bm0 [255] 1).blocks_owned =
      (set_from_bitfield bm0 [128] 1).blocks_owned ∧
    decode_conn_bitfield [192] = {0, 1} := by
  refine ⟨?_, ?_, ?_⟩ <;> decide

end Minibit
